import Mathlib

set_option maxHeartbeats 1000000

/-!
Verification of the hass2ch ingestion pipeline.

This file shallowly embeds the core data model and operations of the
repository — the Home Assistant state/value model and row resolution
(internal/ingestion/schema.go), the partitioned batching engine
(ingestion/schema.go), the retry executor with exponential backoff
(pkg/retry/backoff.go), the write-error classifier (pkg/clickhouse), the
batch orchestration fold (internal/ingestion pipeline), and the protocol
client's subscription lifecycle (hass/client.go) — and proves properties
of those embeddings.

Conventions: Go strings are Lean `String`; Go `time.Duration` values are
rational numbers of nanoseconds where real-valued arithmetic matters and
natural numbers elsewhere; Go `float64` arithmetic in the backoff formula
is modelled by exact rational arithmetic (the ideal real-number semantics
of the formula); JSON blobs and timestamps are carried as opaque strings.
Channel-based code is modelled by explicit state passing: the goroutine
bodies become folds over the list of actions the goroutine serves, with
the mutex-serialised timer callbacks appearing as explicit actions.
-/

/-! ### Entity domain and value constants (hass package, entity.go) -/

def EntitySwitch : String := "switch"
def EntityLight : String := "light"
def EntitySensor : String := "sensor"
def EntityBinarySensor : String := "binary_sensor"
def EntityInputBoolean : String := "input_boolean"
def EntityBooleanSensor : String := "boolean_sensor"
def EntityNumericSensor : String := "numeric_sensor"

def BooleanOnValue : String := "on"
def BooleanOffValue : String := "off"
def BooleanTrueValue : String := "true"
def BooleanFalseValue : String := "false"

def UnknownValue : String := "unknown"
def UnavailableValue : String := "unavailable"

/-! ### Values and states (hass/message.go, internal/ingestion/schema.go)

In Go, the `State`/`OldState` fields of a `StateChange` row have type
`any` and hold either the raw state string or a normalized boolean.
`HValue` is that closed union.
-/

inductive HValue where
  | str (s : String)
  | bool (b : Bool)
deriving DecidableEq, Repr

/-- Embedding of `hass.State` (hass/message.go). `Attributes` and
`Context` are raw JSON in Go and are carried as opaque strings; the
`time.Time` fields are carried as their rendered strings. -/
structure HassState where
  entityId : String
  state : String
  attributes : String
  context : String
  lastChanged : String
  lastUpdated : String
  lastReported : Option String
deriving DecidableEq, Repr

/-- Embedding of `ingestion.StateChange` (internal/ingestion/schema.go):
a processed state change event ready for insertion. -/
structure StateChange where
  entityId : String
  state : HValue
  oldState : HValue
  attributes : String
  context : String
  lastChanged : String
  lastUpdated : String
  lastReported : Option String
deriving DecidableEq, Repr

/-- Embedding of `isSkippedValue` (internal/ingestion/schema.go:186-194):
a state value is skipped when it is the empty string, "unknown" or
"unavailable". -/
def isSkippedValue (value : String) : Bool :=
  value == "" || value == UnknownValue || value == UnavailableValue

/-- Embedding of `normalizeBooleanValue` (internal/ingestion/schema.go:175-184):
"on"/"true" map to true, "off"/"false" map to false, and the default
switch case also yields false. -/
def normalizeBooleanValue (value : String) : HValue :=
  if value = BooleanOnValue ∨ value = BooleanTrueValue then .bool true
  else if value = BooleanOffValue ∨ value = BooleanFalseValue then .bool false
  else .bool false

/-- The boolean-domain switch condition of `resolveStateChangeInput`
(internal/ingestion/schema.go:84): the four domains whose states are
normalized to booleans. -/
def isBooleanDomain (domain : String) : Bool :=
  domain == EntityBinarySensor || domain == EntitySwitch ||
    domain == EntityInputBoolean || domain == EntityBooleanSensor

/-- Embedding of `resolveStateChangeInput` (internal/ingestion/schema.go:72-104).
The old-state sentinel is coerced to the empty string, a new-state
sentinel aborts with an error, and for boolean domains both values are
then normalized from the original raw state strings. -/
def resolveStateChangeInput (domain : String) (oldState newState : HassState) :
    Except String StateChange :=
  let oldStateValue : HValue := .str oldState.state
  let newStateValue : HValue := .str newState.state
  let oldStateValue := if isSkippedValue oldState.state then HValue.str "" else oldStateValue
  if isSkippedValue newState.state then
    .error ("skipping event with unknown state: " ++ newState.state)
  else
    let pair :=
      if isBooleanDomain domain then
        (normalizeBooleanValue oldState.state, normalizeBooleanValue newState.state)
      else (oldStateValue, newStateValue)
    .ok {
      entityId := newState.entityId
      state := pair.2
      oldState := pair.1
      attributes := newState.attributes
      context := newState.context
      lastChanged := newState.lastChanged
      lastUpdated := newState.lastUpdated
      lastReported := newState.lastReported
    }

/-! ### Theorems about state resolution -/

/-- C10: for boolean entity domains, state normalization maps "on" and
"true" to the boolean true and every other string (including "off",
"false", the empty string and the sentinels) to the boolean false; the
result is always a boolean. -/
theorem c10_normalize_boolean_total (s : String) :
    normalizeBooleanValue s = HValue.bool (decide (s = BooleanOnValue ∨ s = BooleanTrueValue)) := by
  unfold normalizeBooleanValue
  split_ifs with h1 h2 <;> simp_all

/-- Concrete old/new states used in the C9 counterexample: a `switch`
entity whose old state is the sentinel "unknown" and whose new state is
"on". -/
def oldStateW : HassState :=
  { entityId := "switch.a", state := "unknown", attributes := "{}", context := "{}",
    lastChanged := "2024-01-01T00:00:00Z", lastUpdated := "2024-01-01T00:00:00Z",
    lastReported := none }

def newStateW : HassState :=
  { entityId := "switch.a", state := "on", attributes := "{}", context := "{}",
    lastChanged := "2024-01-01T00:00:01Z", lastUpdated := "2024-01-01T00:00:01Z",
    lastReported := none }

/-- C9 counterexample: for the boolean domain "switch" with old state
"unknown" (a skip sentinel) and new state "on", the resolved row keeps
the item but records the old state as the boolean false — not as the
empty string as the claim states: the boolean normalization overwrites
the sentinel coercion. -/
theorem c9_counterexample_boolean_old_sentinel :
    (resolveStateChangeInput EntitySwitch oldStateW newStateW).map StateChange.oldState
        = Except.ok (HValue.bool false)
      ∧ HValue.bool false ≠ HValue.str "" := by
  exact ⟨rfl, by decide⟩

/-- C9 (amended): sentinel handling in row resolution is asymmetric. A
new-state sentinel always makes resolution fail (the item is dropped
entirely); an old-state sentinel keeps the item, recording the old state
as the empty string for non-boolean domains, while for boolean domains
the old state is subsequently normalized to a boolean (false for every
sentinel). -/
theorem c9_sentinel_asymmetry (domain : String) (oldState newState : HassState)
    (hold : isSkippedValue oldState.state = true) :
    (isSkippedValue newState.state = true →
        resolveStateChangeInput domain oldState newState
          = .error ("skipping event with unknown state: " ++ newState.state))
    ∧ (isSkippedValue newState.state = false → isBooleanDomain domain = false →
        (resolveStateChangeInput domain oldState newState).map StateChange.oldState
          = Except.ok (HValue.str ""))
    ∧ (isSkippedValue newState.state = false → isBooleanDomain domain = true →
        (resolveStateChangeInput domain oldState newState).map StateChange.oldState
          = Except.ok (normalizeBooleanValue oldState.state)) := by
  refine ⟨fun hnew => ?_, fun hnew hdom => ?_, fun hnew hdom => ?_⟩
  · simp [resolveStateChangeInput, hold, hnew, Except.map]
  · simp [resolveStateChangeInput, hold, hnew, hdom, Except.map]
  · simp [resolveStateChangeInput, hold, hnew, hdom, Except.map]

/-- Witness for C9: the amended theorem applied to the concrete states
`oldStateW`/`newStateW`, once for a non-boolean domain and once for the
boolean domain "switch". -/
theorem c9_sentinel_asymmetry_witness :
    ((resolveStateChangeInput EntityLight oldStateW newStateW).map StateChange.oldState
        = Except.ok (HValue.str ""))
    ∧ ((resolveStateChangeInput EntitySwitch oldStateW newStateW).map StateChange.oldState
        = Except.ok (normalizeBooleanValue oldStateW.state)) :=
  ⟨(c9_sentinel_asymmetry EntityLight oldStateW newStateW (by decide)).2.1 (by decide) (by decide),
   (c9_sentinel_asymmetry EntitySwitch oldStateW newStateW (by decide)).2.2 (by decide) (by decide)⟩

/-! ### Partitioned batching engine (ingestion/schema.go:47-133)

`Batch[T]` runs one goroutine that consumes the input channel and a
per-partition `time.AfterFunc` callback, all serialised by `batchesMtx`.
The embedding replays that serialisation explicitly: the goroutine's
life is a fold over a list of actions, where an action is either the
arrival of an input item or the (mutex-serialised) firing of a
partition's deadline timer; end of the list is closure of the input
channel, after which every pending partition is flushed and both output
channels are closed (the fold returns). The Go `map[string][]T` is an
association list in insertion order.
-/

/-- Embedding of `ingestion.Partitioner[T]` (ingestion/schema.go:47). -/
def Partitioner (T : Type) : Type := T → Except String String

/-- Embedding of `ingestion.BatchOptions[T]` (ingestion/schema.go:49-60). -/
structure BatchOptions (T : Type) where
  maxSize : Nat
  maxWait : Nat
  partitionBy : Option (Partitioner T)

/-- Embedding of `BatchOptions.defaults` (ingestion/schema.go:62-70). -/
def BatchOptions.applyDefaults {T : Type} (o : BatchOptions T) : BatchOptions T :=
  { o with
    maxSize := if o.maxSize = 0 then 100 else o.maxSize
    maxWait := if o.maxWait = 0 then 60000000000 else o.maxWait }

/-- The partition key computed for an item (ingestion/schema.go:94-102):
the empty key when no partition function is set, otherwise the partition
function's result. -/
def partKey {T : Type} (o : BatchOptions T) (x : T) : Except String String :=
  match o.partitionBy with
  | none => .ok ""
  | some f => f x

/-- One action served by the batching goroutine: an item arriving on the
input channel, or a partition's deadline timer callback running. -/
inductive BAction (T : Type) where
  | item (x : T)
  | timerFire (key : String)

/-- The accumulator state: the `batches` map as an association list. -/
abbrev BState (T : Type) := List (String × List T)

def lookupB {T : Type} : BState T → String → Option (List T)
  | [], _ => none
  | p :: rest, key => if p.1 = key then some p.2 else lookupB rest key

def eraseB {T : Type} (st : BState T) (key : String) : BState T :=
  st.filter (fun p => p.1 ≠ key)

def setB {T : Type} (st : BState T) (key : String) (l : List T) : BState T :=
  st.map (fun p => if p.1 = key then (key, l) else p)

/-- One step of the batching goroutine (ingestion/schema.go:85-129).
Returns the new accumulator state, the batches emitted on `out` by this
step, and the errors emitted on `errc`. An item whose partition function
fails is dropped with its error. A first item for a key creates that
partition (arming its timer); a subsequent item is appended, and when
the partition reaches exactly `maxSize` items it is emitted and removed
(its timer stopped). A timer callback emits and removes its partition. -/
def stepB {T : Type} (o : BatchOptions T) (st : BState T) (a : BAction T) :
    BState T × List (List T) × List String :=
  match a with
  | .item x =>
    match partKey o x with
    | .error e => (st, [], [e])
    | .ok key =>
      match lookupB st key with
      | none => (st ++ [(key, [x])], [], [])
      | some l =>
        let l2 := l ++ [x]
        if l2.length = o.maxSize then (eraseB st key, [l2], [])
        else (setB st key l2, [], [])
  | .timerFire key =>
    match lookupB st key with
    | some l => (eraseB st key, [l], [])
    | none => (st, [], [])

/-- The goroutine's main loop: fold `stepB` over the action list,
collecting emitted batches and errors in order. -/
def runB {T : Type} (o : BatchOptions T) : BState T → List (BAction T) →
    BState T × List (List T) × List String
  | st, [] => (st, [], [])
  | st, a :: rest =>
    let s1 := stepB o st a
    let s2 := runB o s1.1 rest
    (s2.1, s1.2.1 ++ s2.2.1, s1.2.2 ++ s2.2.2)

/-- Embedding of `ingestion.Batch` (ingestion/schema.go:72-133): apply
defaults, serve all actions, and on input closure flush every pending
partition as one final batch each; both output streams then close (the
function returns). The first component is the full sequence of batches
sent on `out`, the second the errors sent on `errc`. -/
def Batch {T : Type} (acts : List (BAction T)) (opts : BatchOptions T) :
    List (List T) × List String :=
  let o := opts.applyDefaults
  let r := runB o [] acts
  (r.2.1 ++ r.1.map Prod.snd, r.2.2)

/-- The constant-key partition function used in the C2 failing input. -/
def constKeyPart : Partitioner Nat := fun _ => .ok "k"

/-- C2 failing input: with MaxSize = 1 and two items of one partition
key, the Batch operation emits a single batch of both items at input
closure instead of the claimed two batches of one item each — the size
trigger is only checked when appending to an existing accumulator, never
when creating one, so a partition can never reach MaxSize = 1 by the
size path. -/
theorem c2_batch_maxsize_one_failing_input :
    Batch [BAction.item 0, BAction.item 1]
        { maxSize := 1, maxWait := 1, partitionBy := some constKeyPart }
      = ([[0, 1]], []) := by
  rfl

/-! ### Batching engine invariants -/

/-- One for an input item, zero for a timer callback. -/
def itemWeight {T : Type} : BAction T → Nat
  | .item _ => 1
  | .timerFire _ => 0

/-- Number of input items among the actions. -/
def itemCount {T : Type} (acts : List (BAction T)) : Nat :=
  (acts.map itemWeight).sum

/-- The keys of the accumulator map. -/
def keysB {T : Type} (st : BState T) : List String :=
  st.map Prod.fst

/-- Total number of items pending in the accumulator. -/
def pendingB {T : Type} (st : BState T) : Nat :=
  (st.map (fun p => p.2.length)).sum

/-- Total number of items across a list of emitted batches. -/
def sumSizes {T : Type} (outs : List (List T)) : Nat :=
  (outs.map List.length).sum

theorem sumSizes_append {T : Type} (a b : List (List T)) :
    sumSizes (a ++ b) = sumSizes a + sumSizes b := by
  simp [sumSizes]

theorem lookupB_mem {T : Type} :
    ∀ {st : BState T} {key : String} {l : List T},
      lookupB st key = some l → (key, l) ∈ st := by
  intro st
  induction st with
  | nil => intro key l h; simp [lookupB] at h
  | cons p rest ih =>
    intro key l h
    obtain ⟨k, v⟩ := p
    by_cases hk : k = key
    · subst hk
      simp [lookupB] at h
      subst h
      exact List.mem_cons_self _ _
    · simp [lookupB, hk] at h
      exact List.mem_cons_of_mem _ (ih h)

theorem lookupB_none_iff {T : Type} :
    ∀ {st : BState T} {key : String},
      lookupB st key = none ↔ key ∉ keysB st := by
  intro st
  induction st with
  | nil => intro key; simp [lookupB, keysB]
  | cons p rest ih =>
    intro key
    obtain ⟨k, v⟩ := p
    by_cases hk : k = key
    · subst hk; simp [lookupB, keysB]
    · simp [lookupB, hk, keysB, ih]
      tauto

theorem mem_eraseB {T : Type} {st : BState T} {key : String} {p : String × List T}
    (h : p ∈ eraseB st key) : p ∈ st :=
  List.mem_of_mem_filter h

theorem eraseB_sublist {T : Type} (st : BState T) (key : String) :
    (eraseB st key).Sublist st :=
  List.filter_sublist st

theorem eraseB_of_not_mem {T : Type} :
    ∀ {st : BState T} {key : String}, key ∉ keysB st → eraseB st key = st := by
  intro st
  induction st with
  | nil => intro key _; rfl
  | cons p rest ih =>
    intro key h
    obtain ⟨k, v⟩ := p
    have h1 : ¬(k = key) := fun he => h (he ▸ List.mem_cons_self _ _)
    have h2 : key ∉ keysB rest := fun hm => h (List.mem_cons_of_mem _ hm)
    have ht := ih h2
    simp only [eraseB] at ht ⊢
    rw [List.filter_cons, if_pos (by simp [h1]), ht]

theorem setB_of_not_mem {T : Type} :
    ∀ {st : BState T} {key : String} {l : List T}, key ∉ keysB st → setB st key l = st := by
  intro st
  induction st with
  | nil => intro key l _; rfl
  | cons p rest ih =>
    intro key l h
    obtain ⟨k, v⟩ := p
    have h1 : ¬(k = key) := fun he => h (he ▸ List.mem_cons_self _ _)
    have h2 : key ∉ keysB rest := fun hm => h (List.mem_cons_of_mem _ hm)
    have ht := @ih key l h2
    simp only [setB] at ht ⊢
    simp [h1]
    exact ht

theorem keysB_setB {T : Type} :
    ∀ {st : BState T} {key : String} {l : List T}, keysB (setB st key l) = keysB st := by
  intro st
  induction st with
  | nil => intro key l; rfl
  | cons p rest ih =>
    intro key l
    obtain ⟨k, v⟩ := p
    by_cases hk : k = key
    · subst hk; simp [setB, keysB] at *; exact ih
    · simp [setB, keysB, hk] at *; exact ih

theorem mem_setB {T : Type} {st : BState T} {key : String} {l : List T}
    {q : String × List T} (h : q ∈ setB st key l) : q = (key, l) ∨ q ∈ st := by
  simp only [setB, List.mem_map] at h
  obtain ⟨p, hp, heq⟩ := h
  by_cases hk : p.1 = key
  · simp [hk] at heq; exact Or.inl heq.symm
  · simp [hk] at heq; exact Or.inr (heq ▸ hp)

theorem pendingB_cons {T : Type} (k : String) (v : List T) (rest : BState T) :
    pendingB ((k, v) :: rest) = v.length + pendingB rest := by
  simp [pendingB]

theorem eraseB_cons {T : Type} (k : String) (v : List T) (rest : BState T) (key : String) :
    eraseB ((k, v) :: rest) key
      = if k = key then eraseB rest key else (k, v) :: eraseB rest key := by
  simp only [eraseB, List.filter_cons]
  by_cases hk : k = key <;> simp [hk]

theorem setB_cons {T : Type} (k : String) (v : List T) (rest : BState T) (key : String)
    (l : List T) :
    setB ((k, v) :: rest) key l
      = (if k = key then (key, l) else (k, v)) :: setB rest key l := by
  simp only [setB, List.map_cons]

theorem pendingB_eraseB {T : Type} :
    ∀ {st : BState T} {key : String} {l : List T},
      (keysB st).Nodup → lookupB st key = some l →
      pendingB st = l.length + pendingB (eraseB st key) := by
  intro st
  induction st with
  | nil => intro key l _ h; simp [lookupB] at h
  | cons p rest ih =>
    intro key l hnd hl
    obtain ⟨k, v⟩ := p
    have hnd' : k ∉ keysB rest ∧ (keysB rest).Nodup := by
      simpa [keysB] using hnd
    by_cases hk : k = key
    · subst hk
      simp [lookupB] at hl
      subst hl
      have he : eraseB ((k, v) :: rest) k = rest := by
        rw [eraseB_cons, if_pos rfl, eraseB_of_not_mem hnd'.1]
      rw [he, pendingB_cons]
    · simp [lookupB, hk] at hl
      have he : eraseB ((k, v) :: rest) key = (k, v) :: eraseB rest key := by
        rw [eraseB_cons, if_neg hk]
      rw [he, pendingB_cons, pendingB_cons, ih hnd'.2 hl]
      omega

theorem pendingB_setB {T : Type} :
    ∀ {st : BState T} {key : String} {l l2 : List T},
      (keysB st).Nodup → lookupB st key = some l →
      pendingB (setB st key l2) + l.length = pendingB st + l2.length := by
  intro st
  induction st with
  | nil => intro key l l2 _ h; simp [lookupB] at h
  | cons p rest ih =>
    intro key l l2 hnd hl
    obtain ⟨k, v⟩ := p
    have hnd' : k ∉ keysB rest ∧ (keysB rest).Nodup := by
      simpa [keysB] using hnd
    by_cases hk : k = key
    · subst hk
      simp [lookupB] at hl
      subst hl
      have hs : setB ((k, v) :: rest) k l2 = (k, l2) :: rest := by
        rw [setB_cons, if_pos rfl, setB_of_not_mem hnd'.1]
      rw [hs, pendingB_cons, pendingB_cons]
      omega
    · simp [lookupB, hk] at hl
      have hs : setB ((k, v) :: rest) key l2 = (k, v) :: setB rest key l2 := by
        rw [setB_cons, if_neg hk]
      rw [hs, pendingB_cons, pendingB_cons]
      have := @ih key l l2 hnd'.2 hl
      omega

theorem pendingB_append {T : Type} (a b : BState T) :
    pendingB (a ++ b) = pendingB a + pendingB b := by
  simp [pendingB]

/-- One step of the batching goroutine keeps the accumulator keys
duplicate-free. -/
theorem stepB_nodup {T : Type} (o : BatchOptions T) (st : BState T) (a : BAction T)
    (hnd : (keysB st).Nodup) : (keysB (stepB o st a).1).Nodup := by
  cases a with
  | item x =>
    cases hpk : partKey o x with
    | error e => simpa [stepB, hpk] using hnd
    | ok key =>
      cases hlk : lookupB st key with
      | none =>
        have hkm : key ∉ keysB st := lookupB_none_iff.mp hlk
        simp only [stepB, hpk, hlk]
        have hkeys : keysB (st ++ [(key, [x])]) = keysB st ++ [key] := by simp [keysB]
        rw [hkeys]
        refine List.Nodup.append hnd (List.nodup_singleton key) ?_
        intro b hb hbk
        simp at hbk
        subst hbk
        exact hkm hb
      | some l =>
        simp only [stepB, hpk, hlk]
        split_ifs with hlen
        · simp only [keysB]
          exact List.Nodup.sublist (List.Sublist.map Prod.fst (eraseB_sublist st key)) hnd
        · rw [keysB_setB]; exact hnd
  | timerFire key =>
    cases hlk : lookupB st key with
    | none => simpa [stepB, hlk] using hnd
    | some l =>
      simp only [stepB, hlk, keysB]
      exact List.Nodup.sublist (List.Sublist.map Prod.fst (eraseB_sublist st key)) hnd

/-- Item conservation across one step: the items pending afterwards plus
the items emitted plus the errors emitted account exactly for the items
pending before plus the new item (if the action was an item arrival). -/
theorem stepB_conservation {T : Type} (o : BatchOptions T) (st : BState T) (a : BAction T)
    (hnd : (keysB st).Nodup) :
    pendingB (stepB o st a).1 + sumSizes (stepB o st a).2.1 + ((stepB o st a).2.2).length
      = pendingB st + itemWeight a := by
  cases a with
  | item x =>
    cases hpk : partKey o x with
    | error e => simp [stepB, hpk, sumSizes, itemWeight]
    | ok key =>
      cases hlk : lookupB st key with
      | none =>
        simp [stepB, hpk, hlk, sumSizes, itemWeight, pendingB_append, pendingB]
      | some l =>
        simp only [stepB, hpk, hlk, itemWeight]
        split_ifs with hlen
        · have hp := pendingB_eraseB hnd hlk
          have hs : sumSizes [l ++ [x]] = l.length + 1 := by simp [sumSizes]
          show pendingB (eraseB st key) + sumSizes [l ++ [x]] + ([] : List String).length
              = pendingB st + 1
          simp only [List.length_nil]
          omega
        · have hp := @pendingB_setB T st key l (l ++ [x]) hnd hlk
          have hlen2 : (l ++ [x]).length = l.length + 1 := by simp
          show pendingB (setB st key (l ++ [x])) + sumSizes ([] : List (List T))
                + ([] : List String).length
              = pendingB st + 1
          simp only [List.length_nil, sumSizes, List.map_nil, List.sum_nil]
          omega
  | timerFire key =>
    cases hlk : lookupB st key with
    | none => simp [stepB, hlk, sumSizes, itemWeight]
    | some l =>
      have hp := pendingB_eraseB hnd hlk
      have hs : sumSizes [l] = l.length := by simp [sumSizes]
      simp only [stepB, hlk, itemWeight]
      show pendingB (eraseB st key) + sumSizes [l] + ([] : List String).length
          = pendingB st + 0
      simp only [List.length_nil]
      omega

/-- Every accumulated item sits under its own partition key. -/
def KeyInv {T : Type} (o : BatchOptions T) (st : BState T) : Prop :=
  ∀ p ∈ st, ∀ x ∈ p.2, partKey o x = .ok p.1

/-- Every pending partition is nonempty. -/
def NEInv {T : Type} (st : BState T) : Prop :=
  ∀ p ∈ st, p.2 ≠ []

/-- One step preserves the key invariant, and every batch emitted by the
step consists of items of one single partition key. -/
theorem stepB_keyinv {T : Type} (o : BatchOptions T) (st : BState T) (a : BAction T)
    (hinv : KeyInv o st) :
    KeyInv o (stepB o st a).1
      ∧ ∀ b ∈ (stepB o st a).2.1, ∃ k, ∀ x ∈ b, partKey o x = .ok k := by
  cases a with
  | item x =>
    cases hpk : partKey o x with
    | error e =>
      refine ⟨?_, ?_⟩ <;> simp only [stepB, hpk]
      · exact hinv
      · simp
    | ok key =>
      cases hlk : lookupB st key with
      | none =>
        refine ⟨?_, ?_⟩ <;> simp only [stepB, hpk, hlk]
        · intro p hp
          rcases List.mem_append.mp hp with hin | hin
          · exact hinv p hin
          · simp at hin
            subst hin
            intro y hy
            simp at hy
            subst hy
            exact hpk
        · simp
      | some l =>
        simp only [stepB, hpk, hlk]
        split_ifs with hlen
        · refine ⟨fun p hp => hinv p (mem_eraseB hp), ?_⟩
          intro b hb
          simp at hb
          subst hb
          refine ⟨key, fun y hy => ?_⟩
          rcases List.mem_append.mp hy with hin | hin
          · exact hinv (key, l) (lookupB_mem hlk) y hin
          · simp at hin
            subst hin
            exact hpk
        · refine ⟨?_, by simp⟩
          intro p hp
          rcases mem_setB hp with heq | hin
          · subst heq
            intro y hy
            rcases List.mem_append.mp hy with hin | hin
            · exact hinv (key, l) (lookupB_mem hlk) y hin
            · simp at hin
              subst hin
              exact hpk
          · exact hinv p hin
  | timerFire key =>
    cases hlk : lookupB st key with
    | none =>
      refine ⟨?_, ?_⟩ <;> simp only [stepB, hlk]
      · exact hinv
      · simp
    | some l =>
      refine ⟨?_, ?_⟩ <;> simp only [stepB, hlk]
      · exact fun p hp => hinv p (mem_eraseB hp)
      · intro b hb
        simp at hb
        refine ⟨key, fun y hy => ?_⟩
        rw [hb] at hy
        exact hinv (key, l) (lookupB_mem hlk) y hy

/-- One step preserves nonemptiness of pending partitions. -/
theorem stepB_ne {T : Type} (o : BatchOptions T) (st : BState T) (a : BAction T)
    (h : NEInv st) : NEInv (stepB o st a).1 := by
  cases a with
  | item x =>
    cases hpk : partKey o x with
    | error e => simpa [stepB, hpk] using h
    | ok key =>
      cases hlk : lookupB st key with
      | none =>
        simp only [stepB, hpk, hlk]
        intro p hp
        rcases List.mem_append.mp hp with hin | hin
        · exact h p hin
        · simp at hin
          subst hin
          simp
      | some l =>
        simp only [stepB, hpk, hlk]
        split_ifs with hlen
        · exact fun p hp => h p (mem_eraseB hp)
        · intro p hp
          rcases mem_setB hp with heq | hin
          · subst heq; simp
          · exact h p hin
  | timerFire key =>
    cases hlk : lookupB st key with
    | none => simpa [stepB, hlk] using h
    | some l =>
      simp only [stepB, hlk]
      exact fun p hp => h p (mem_eraseB hp)

theorem runB_cons {T : Type} (o : BatchOptions T) (st : BState T) (a : BAction T)
    (rest : List (BAction T)) :
    runB o st (a :: rest)
      = ((runB o (stepB o st a).1 rest).1,
         (stepB o st a).2.1 ++ (runB o (stepB o st a).1 rest).2.1,
         (stepB o st a).2.2 ++ (runB o (stepB o st a).1 rest).2.2) :=
  rfl

theorem runB_nodup {T : Type} (o : BatchOptions T) :
    ∀ (acts : List (BAction T)) (st : BState T),
      (keysB st).Nodup → (keysB (runB o st acts).1).Nodup := by
  intro acts
  induction acts with
  | nil => intro st hnd; exact hnd
  | cons a rest ih =>
    intro st hnd
    rw [runB_cons]
    exact ih _ (stepB_nodup o st a hnd)

theorem runB_conservation {T : Type} (o : BatchOptions T) :
    ∀ (acts : List (BAction T)) (st : BState T),
      (keysB st).Nodup →
      pendingB (runB o st acts).1 + sumSizes (runB o st acts).2.1
          + ((runB o st acts).2.2).length
        = pendingB st + itemCount acts := by
  intro acts
  induction acts with
  | nil => intro st _; simp [runB, sumSizes, itemCount]
  | cons a rest ih =>
    intro st hnd
    rw [runB_cons]
    have h1 := stepB_conservation o st a hnd
    have h2 := ih (stepB o st a).1 (stepB_nodup o st a hnd)
    have h3 : itemCount (a :: rest) = itemWeight a + itemCount rest := by
      simp [itemCount]
    simp only [sumSizes_append, List.length_append]
    omega

theorem runB_keyinv {T : Type} (o : BatchOptions T) :
    ∀ (acts : List (BAction T)) (st : BState T),
      KeyInv o st →
      KeyInv o (runB o st acts).1
        ∧ ∀ b ∈ (runB o st acts).2.1, ∃ k, ∀ x ∈ b, partKey o x = .ok k := by
  intro acts
  induction acts with
  | nil =>
    intro st hinv
    exact ⟨hinv, by simp [runB]⟩
  | cons a rest ih =>
    intro st hinv
    rw [runB_cons]
    obtain ⟨hstep1, hstep2⟩ := stepB_keyinv o st a hinv
    obtain ⟨hrun1, hrun2⟩ := ih (stepB o st a).1 hstep1
    refine ⟨hrun1, ?_⟩
    intro b hb
    rcases List.mem_append.mp hb with h | h
    · exact hstep2 b h
    · exact hrun2 b h

theorem runB_ne {T : Type} (o : BatchOptions T) :
    ∀ (acts : List (BAction T)) (st : BState T),
      NEInv st → NEInv (runB o st acts).1 := by
  intro acts
  induction acts with
  | nil => intro st h; exact h
  | cons a rest ih =>
    intro st h
    rw [runB_cons]
    exact ih _ (stepB_ne o st a h)

theorem Batch_def {T : Type} (acts : List (BAction T)) (opts : BatchOptions T) :
    Batch acts opts
      = ((runB opts.applyDefaults [] acts).2.1
           ++ (runB opts.applyDefaults [] acts).1.map Prod.snd,
         (runB opts.applyDefaults [] acts).2.2) :=
  rfl

theorem partKey_applyDefaults {T : Type} (opts : BatchOptions T) :
    partKey opts.applyDefaults = partKey opts :=
  rfl

/-! ### Theorems about the batching engine -/

/-- C3: for every input sequence (including timer firings at arbitrary
serialisation points) and every partition function, every batch emitted
by the Batch operation — by size trigger, by deadline trigger or by the
final flush — contains only items of one single partition key. -/
theorem c3_batch_single_partition_key {T : Type} (opts : BatchOptions T)
    (acts : List (BAction T)) (b : List T) (hb : b ∈ (Batch acts opts).1)
    (x y : T) (hx : x ∈ b) (hy : y ∈ b) :
    partKey opts x = partKey opts y := by
  have hki := runB_keyinv opts.applyDefaults acts []
    (fun p hp => absurd hp (List.not_mem_nil p))
  rw [Batch_def] at hb
  rcases List.mem_append.mp hb with h | h
  · obtain ⟨k, hk⟩ := hki.2 b h
    have e1 := hk x hx
    have e2 := hk y hy
    rw [partKey_applyDefaults] at e1 e2
    rw [e1, e2]
  · obtain ⟨p, hp, rfl⟩ := List.mem_map.mp h
    have hk := hki.1 p hp
    have e1 := hk x hx
    have e2 := hk y hy
    rw [partKey_applyDefaults] at e1 e2
    rw [e1, e2]

/-- Partition function used in the C3 witness: even items to key "e",
odd ones to key "o". -/
def evenOddPart : Partitioner Nat := fun n => .ok (if n % 2 = 0 then "e" else "o")

def optsW : BatchOptions Nat :=
  { maxSize := 2, maxWait := 1, partitionBy := some evenOddPart }

def actsW : List (BAction Nat) := [.item 0, .item 2, .item 1]

/-- Witness for C3: on the concrete run `actsW` with two partition keys,
the size-triggered batch [0, 2] is single-keyed. -/
theorem c3_batch_single_partition_key_witness : partKey optsW 0 = partKey optsW 2 :=
  c3_batch_single_partition_key optsW actsW [0, 2] (by decide) 0 2 (by decide) (by decide)

/-- C4: when the input stream closes, every still-open partition is
nonempty and is flushed as one final batch, and across the whole run no
item is lost or duplicated: the total number of items in emitted batches
plus the number of partition errors equals the number of input items. -/
theorem c4_batch_flush_conservation {T : Type} (opts : BatchOptions T)
    (acts : List (BAction T)) :
    sumSizes (Batch acts opts).1 + ((Batch acts opts).2).length = itemCount acts
      ∧ ((runB opts.applyDefaults [] acts).1.all fun p => !p.2.isEmpty) = true := by
  constructor
  · have h := runB_conservation opts.applyDefaults acts [] (by simp [keysB])
    have hpend : sumSizes ((runB opts.applyDefaults [] acts).1.map Prod.snd)
        = pendingB (runB opts.applyDefaults [] acts).1 := by
      simp only [sumSizes, pendingB, List.map_map]
      rfl
    rw [Batch_def]
    simp only [sumSizes_append]
    rw [hpend]
    have h0 : pendingB ([] : BState T) = 0 := rfl
    rw [h0] at h
    omega
  · have hne := runB_ne opts.applyDefaults acts []
      (fun p hp => absurd hp (List.not_mem_nil p))
    rw [List.all_eq_true]
    intro p hp
    have hne2 := hne p hp
    cases h2 : p.2 with
    | nil => exact absurd h2 hne2
    | cons z zs => simp [h2]

/-! ### Retry executor with exponential backoff (pkg/retry/backoff.go)

Durations are rationals counting nanoseconds; the `float64` arithmetic
of `nextBackoff` is modelled by exact rational arithmetic, and the
`rand.Float64()` draw is an explicit parameter `r` of the function.
-/

/-- Embedding of `retry.Config` (pkg/retry/backoff.go:13-24). -/
structure RetryConfig where
  maxRetries : Nat
  initialInterval : ℚ
  maxInterval : ℚ
  multiplier : ℚ
  randomizationFactor : ℚ

/-- Embedding of `Config.nextBackoff` (pkg/retry/backoff.go:38-56):
exponential backoff capped at `maxInterval`, then symmetrically
randomized by `randomizationFactor`; `r` is the uniform draw in [0, 1).
Returns 0 when the retry index has reached `maxRetries`. -/
def RetryConfig.nextBackoff (c : RetryConfig) (retry : Nat) (r : ℚ) : ℚ :=
  if c.maxRetries ≤ retry then 0
  else
    let backoff := c.initialInterval * c.multiplier ^ retry
    let backoff := if c.maxInterval < backoff then c.maxInterval else backoff
    let delta := c.randomizationFactor * backoff
    let minn := backoff - delta
    let maxx := backoff + delta
    minn + r * (maxx - minn)

/-- The un-jittered capped delay `min(InitialInterval * Multiplier^retry,
MaxInterval)`, written exactly as the code computes it before the
randomization step. -/
def RetryConfig.expectedBackoff (c : RetryConfig) (retry : Nat) : ℚ :=
  let backoff := c.initialInterval * c.multiplier ^ retry
  if c.maxInterval < backoff then c.maxInterval else backoff

theorem RetryConfig.expectedBackoff_eq_min (c : RetryConfig) (n : Nat) :
    c.expectedBackoff n = min (c.initialInterval * c.multiplier ^ n) c.maxInterval := by
  unfold RetryConfig.expectedBackoff
  rcases le_or_lt (c.initialInterval * c.multiplier ^ n) c.maxInterval with h | h
  · rw [if_neg (not_lt.mpr h), min_eq_left h]
  · rw [if_pos h, min_eq_right h.le]

theorem RetryConfig.nextBackoff_eq (c : RetryConfig) (retry : Nat) (r : ℚ)
    (h : retry < c.maxRetries) :
    c.nextBackoff retry r
      = c.expectedBackoff retry
          + (2 * r - 1) * (c.randomizationFactor * c.expectedBackoff retry) := by
  unfold RetryConfig.nextBackoff RetryConfig.expectedBackoff
  rw [if_neg (not_le.mpr h)]
  ring

/-- C6: the computed backoff delay equals the capped exponential value
symmetrically randomized within ±RandomizationFactor of it: with factor
1/2 every delay lies in [expected/2, 3·expected/2], with factor 0 the
delay equals the capped value exactly, and the expected (un-jittered)
delays are non-decreasing in the attempt number until capped at
MaxInterval. -/
theorem c6_backoff_bounds (c : RetryConfig) (retry : Nat) (r : ℚ)
    (hretry : retry < c.maxRetries) (hr0 : 0 ≤ r) (hr1 : r ≤ 1)
    (hI : 0 ≤ c.initialInterval) (hM : 1 ≤ c.multiplier) (hMax : 0 ≤ c.maxInterval) :
    (c.randomizationFactor = 1 / 2 →
        1 / 2 * c.expectedBackoff retry ≤ c.nextBackoff retry r
          ∧ c.nextBackoff retry r ≤ 3 / 2 * c.expectedBackoff retry)
    ∧ (c.randomizationFactor = 0 → c.nextBackoff retry r = c.expectedBackoff retry)
    ∧ c.expectedBackoff retry ≤ c.expectedBackoff (retry + 1) := by
  have hM0 : (0 : ℚ) ≤ c.multiplier := le_trans zero_le_one hM
  have he : 0 ≤ c.expectedBackoff retry := by
    rw [RetryConfig.expectedBackoff_eq_min]
    exact le_min (mul_nonneg hI (pow_nonneg hM0 retry)) hMax
  have heq := c.nextBackoff_eq retry r hretry
  refine ⟨?_, ?_, ?_⟩
  · intro hf
    rw [heq, hf]
    constructor <;> nlinarith
  · intro hf
    rw [heq, hf]
    ring
  · have hb : c.initialInterval * c.multiplier ^ retry
        ≤ c.initialInterval * c.multiplier ^ (retry + 1) :=
      mul_le_mul_of_nonneg_left (pow_le_pow_right₀ hM (Nat.le_succ retry)) hI
    rw [RetryConfig.expectedBackoff_eq_min, RetryConfig.expectedBackoff_eq_min]
    exact min_le_min hb le_rfl

/-- Concrete retry configuration used in the C5 and C6 witnesses. -/
def cfgW : RetryConfig :=
  { maxRetries := 3, initialInterval := 100, maxInterval := 1000,
    multiplier := 2, randomizationFactor := 1 / 2 }

/-- Witness for C6: the bounds at the concrete configuration `cfgW`,
retry index 2 and random draw 1/2. -/
theorem c6_backoff_bounds_witness :
    (cfgW.randomizationFactor = 1 / 2 →
        1 / 2 * cfgW.expectedBackoff 2 ≤ cfgW.nextBackoff 2 (1 / 2)
          ∧ cfgW.nextBackoff 2 (1 / 2) ≤ 3 / 2 * cfgW.expectedBackoff 2)
    ∧ (cfgW.randomizationFactor = 0 → cfgW.nextBackoff 2 (1 / 2) = cfgW.expectedBackoff 2)
    ∧ cfgW.expectedBackoff 2 ≤ cfgW.expectedBackoff 3 :=
  c6_backoff_bounds cfgW 2 (1 / 2) (by norm_num [cfgW]) (by norm_num) (by norm_num)
    (by norm_num [cfgW]) (by norm_num [cfgW]) (by norm_num [cfgW])

/-- Errors returned by the retry executor, mirroring the `fmt.Errorf`
wrappings in `DoWithCallbacks` (pkg/retry/backoff.go:98,122,128): a
non-retryable error wraps the underlying error, exhaustion wraps the
configured retry count and the last error, and cancellation during a
backoff wait wraps the context error. -/
inductive RetryError (E : Type) where
  | nonRetryable (e : E)
  | exhausted (maxRetries : Nat) (e : E)
  | canceled
deriving DecidableEq, Repr

/-- The attempt loop of `DoWithCallbacks` (pkg/retry/backoff.go:80-126).
`fn n` is the outcome of the (n+1)-th invocation of the operation (none
is success), `ctxDone n` tells whether the context is done during the
backoff wait after attempt `n`, `remaining = maxRetries - attempt` so
that `remaining = 0` is the code's `attempt == cfg.MaxRetries` check.
Returns how many times the operation was invoked and the final outcome
(none is a nil return). The callbacks are observability-only and carry
no state, so they do not appear in the model. -/
def doGo {E : Type} (fn : Nat → Option E) (isRetryable : E → Bool) (ctxDone : Nat → Bool)
    (maxRetries attempt remaining : Nat) : Nat × Option (RetryError E) :=
  match fn attempt with
  | none => (1, none)
  | some e =>
    if isRetryable e then
      match remaining with
      | 0 => (1, some (.exhausted maxRetries e))
      | rem + 1 =>
        if ctxDone attempt then (1, some .canceled)
        else
          let p := doGo fn isRetryable ctxDone maxRetries (attempt + 1) rem
          (p.1 + 1, p.2)
    else (1, some (.nonRetryable e))

/-- Embedding of `retry.DoWithCallbacks` (pkg/retry/backoff.go:77-129):
run the attempt loop from attempt 0 with `maxRetries` retries budget. -/
def DoWithCallbacks {E : Type} (fn : Nat → Option E) (isRetryable : E → Bool)
    (ctxDone : Nat → Bool) (cfg : RetryConfig) : Nat × Option (RetryError E) :=
  doGo fn isRetryable ctxDone cfg.maxRetries 0 cfg.maxRetries

theorem doGo_all_retryable {E : Type} (fn : Nat → Option E) (errs : Nat → E)
    (isRetryable : E → Bool) (hfn : ∀ n, fn n = some (errs n))
    (hisR : ∀ e, isRetryable e = true) :
    ∀ (remaining attempt maxRetries : Nat),
      doGo fn isRetryable (fun _ => false) maxRetries attempt remaining
        = (remaining + 1, some (.exhausted maxRetries (errs (attempt + remaining)))) := by
  intro remaining
  induction remaining with
  | zero =>
    intro attempt maxRetries
    simp [doGo, hfn, hisR]
  | succ rem ih =>
    intro attempt maxRetries
    have hrec := ih (attempt + 1) maxRetries
    simp only [doGo, hfn, hisR, if_true, if_false, Bool.false_eq_true, hrec]
    have : attempt + 1 + rem = attempt + (rem + 1) := by omega
    rw [this]

/-- C5: with MaxRetries = 3, an operation failing every time with a
retryable error is invoked exactly 4 times (1 initial + 3 retries) and
the result wraps the error of the last (4th) invocation; an operation
whose first failure is non-retryable is invoked exactly once and its
error is returned wrapped as non-retryable; an operation that succeeds
returns nil after that single invocation. -/
theorem c5_retry_invocation_counts {E : Type} (cfg : RetryConfig)
    (hmr : cfg.maxRetries = 3) (fn g h' : Nat → Option E) (errs : Nat → E)
    (isR isRg : E → Bool) (e0 : E)
    (hfn : ∀ n, fn n = some (errs n)) (hisR : ∀ e, isR e = true)
    (hg : g 0 = some e0) (hgR : isRg e0 = false) (hh : h' 0 = none) :
    DoWithCallbacks fn isR (fun _ => false) cfg = (4, some (.exhausted 3 (errs 3)))
    ∧ DoWithCallbacks g isRg (fun _ => false) cfg = (1, some (.nonRetryable e0))
    ∧ DoWithCallbacks h' isR (fun _ => false) cfg = (1, none) := by
  refine ⟨?_, ?_, ?_⟩
  · rw [DoWithCallbacks, hmr]
    rw [doGo_all_retryable fn errs isR hfn hisR 3 0 3]
  · rw [DoWithCallbacks, hmr]
    simp [doGo, hg, hgR]
  · rw [DoWithCallbacks, hmr]
    simp [doGo, hh]

/-- Witness for C5: the three scenarios at MaxRetries = 3 with concrete
operations over natural-number errors. -/
theorem c5_retry_invocation_counts_witness :
    DoWithCallbacks (fun n => some n) (fun _ => true) (fun _ => false) cfgW
        = (4, some (.exhausted 3 3))
    ∧ DoWithCallbacks (fun _ => some 7) (fun _ => false) (fun _ => false) cfgW
        = (1, some (.nonRetryable 7))
    ∧ DoWithCallbacks (fun _ : Nat => (none : Option Nat)) (fun _ => true)
          (fun _ => false) cfgW
        = (1, none) :=
  c5_retry_invocation_counts cfgW rfl (fun n => some n) (fun _ => some 7)
    (fun _ => none) (fun n => n) (fun _ => true) (fun _ => false) 7
    (fun _ => rfl) (fun _ => rfl) rfl rfl rfl

/-! ### Write-error classifier (pkg/retry/backoff.go:131-160 and the
ClickHouse client's isRetryableError)

A Go error is modelled as an optional record: `none` is a nil error;
`isNetErr` records whether `errors.As` finds a value implementing
`Timeout() bool` / `Temporary() bool` in the error tree, with `timeout`
and `temporary` those two results; `msg` is `err.Error()`.
-/

structure GoError where
  msg : String
  isNetErr : Bool
  timeout : Bool
  temporary : Bool
deriving DecidableEq, Repr

/-- Is `pre` an initial segment of `l`? (helper for substring search) -/
def listStartsWith : List Char → List Char → Bool
  | [], _ => true
  | _ :: _, [] => false
  | c :: cs, d :: ds => c == d && listStartsWith cs ds

/-- Does `sub` occur as a contiguous sublist of `l`? -/
def listContainsSub : List Char → List Char → Bool
  | sub, [] => sub.isEmpty
  | sub, d :: ds => listStartsWith sub (d :: ds) || listContainsSub sub ds

/-- Embedding of Go `strings.Contains(s, sub)`. -/
def strContains (s sub : String) : Bool :=
  listContainsSub sub.data s.data

/-- Embedding of `retry.IsNetworkError` (pkg/retry/backoff.go:131-160),
kept exactly as written: the net.Error interface check returns its
Timeout/Temporary disjunction; then four whole-message equality checks;
then the loop over 5xx status codes whose condition is the literal
`fmt.Sprintf("status %s", statusCode) != ""` — a condition on the
formatted constant, not on the error message, which is true for every
code, so any non-nil error reaching the loop is declared retryable. -/
def IsNetworkError (err : Option GoError) : Bool :=
  match err with
  | none => false
  | some e =>
    if e.isNetErr then e.timeout || e.temporary
    else if e.msg == "connection refused" || e.msg == "no such host"
        || e.msg == "i/o timeout" || e.msg == "connection reset by peer" then true
    else if ["500", "502", "503", "504"].any (fun code => ("status " ++ code) != "")
      then true
    else false

/-- Embedding of the ClickHouse client's `isRetryableError`
(pkg/clickhouse client, lines 101-139): nil is not retryable; otherwise
first `retry.IsNetworkError`, then substring checks for network-level
messages, known-transient server errors, and 5xx statuses. -/
def isRetryableError (err : Option GoError) : Bool :=
  match err with
  | none => false
  | some e =>
    if IsNetworkError (some e) then true
    else if strContains e.msg "connection refused" || strContains e.msg "connection reset"
        || strContains e.msg "no route to host" || strContains e.msg "i/o timeout" then true
    else if strContains e.msg "Too many parts" || strContains e.msg "Memory limit"
        || strContains e.msg "DB::Exception: Timeout"
        || strContains e.msg "No space left on device" then true
    else if strContains e.msg "status 500" || strContains e.msg "status 502"
        || strContains e.msg "status 503" || strContains e.msg "status 504" then true
    else false

/-- A plain (non-net.Error) fatal error: a ClickHouse syntax error with
no transient marker in its message. -/
def syntaxErrW : GoError :=
  { msg := "Code: 62. DB::Exception: Syntax error: failed at position 1",
    isNetErr := false, timeout := false, temporary := false }

/-- C7 failing input: the write executor's classifier returns true for a
plain non-transient error (a ClickHouse syntax error), because the
always-true `fmt.Sprintf("status %s", code) != ""` loop condition in
`IsNetworkError` classifies every non-nil non-net.Error error as
retryable; the claim (and the dead substring checks that follow) say
such an error must be classified false (fatal, not retried). A nil
error is still classified false. -/
theorem c7_classifier_retries_plain_errors :
    isRetryableError (some syntaxErrW) = true ∧ isRetryableError none = false := by
  exact ⟨by decide, rfl⟩

/-! ### Orchestrator batch handling (internal/ingestion pipeline,
handleStateChangeBatch)

The per-item resolution is abstracted as a function `resolve` returning
the resolved insert destination (database, table, encoded row), exactly
the shape `resolveInput` returns; the fold mirrors the loop body:
resolution failure or a destination conflict counts an error and skips
the item, otherwise the row joins the single insert payload. The
idempotent cached table creation inside the loop performs external DDL
only and does not influence the accumulator. -/

/-- Embedding of the pipeline's `insert` record (database, table name,
encoded row input). -/
structure PInsert (ρ : Type) where
  database : String
  tableName : String
  input : ρ
deriving DecidableEq, Repr

/-- The loop accumulator of `handleStateChangeBatch`: the collected
values (the one insert payload), the batch's established table name
(empty until established), and the processed/error counters. -/
structure PAcc (ρ : Type) where
  values : List ρ
  tableName : String
  processedCount : Nat
  errorCount : Nat
deriving DecidableEq, Repr

/-- One iteration of the `handleStateChangeBatch` loop (pipeline source,
lines 172-210): resolution failure counts an error; a database different
from the pipeline's counts an error; the first resolved item establishes
the batch's table name; a later item with a different table name counts
an error; otherwise the row is appended to the payload. -/
def hscbStep {α ρ : Type} (pdb : String) (resolve : α → Except String (PInsert ρ))
    (s : PAcc ρ) (x : α) : PAcc ρ :=
  match resolve x with
  | .error _ => { s with errorCount := s.errorCount + 1 }
  | .ok ins =>
    if ins.database = pdb then
      if s.tableName = "" then
        { values := s.values ++ [ins.input], tableName := ins.tableName,
          processedCount := s.processedCount + 1, errorCount := s.errorCount }
      else if s.tableName = ins.tableName then
        { values := s.values ++ [ins.input], tableName := s.tableName,
          processedCount := s.processedCount + 1, errorCount := s.errorCount }
      else { s with errorCount := s.errorCount + 1 }
    else { s with errorCount := s.errorCount + 1 }

/-- Embedding of `handleStateChangeBatch`: fold the loop over the batch
from the empty accumulator; afterwards the code builds one JSONEachRow
payload from `values` and performs a single insert when it is nonempty. -/
def handleStateChangeBatch {α ρ : Type} (pdb : String)
    (resolve : α → Except String (PInsert ρ)) (batch : List α) : PAcc ρ :=
  batch.foldl (hscbStep pdb resolve) { values := [], tableName := "", processedCount := 0, errorCount := 0 }

/-- An item conflicts with the state of the batch when it resolves
successfully but its database differs from the pipeline's, or its table
name differs from the batch's already-established table name. -/
def DestinationConflict {α ρ : Type} (pdb : String)
    (resolve : α → Except String (PInsert ρ)) (s : PAcc ρ) (x : α) : Prop :=
  ∃ ins, resolve x = .ok ins
    ∧ (ins.database ≠ pdb ∨ (s.tableName ≠ "" ∧ s.tableName ≠ ins.tableName))

/-- Adding to the error counter only. -/
def bumpErr {ρ : Type} (s : PAcc ρ) (k : Nat) : PAcc ρ :=
  { s with errorCount := s.errorCount + k }

theorem hscbStep_conflict {α ρ : Type} {pdb : String}
    {resolve : α → Except String (PInsert ρ)} {s : PAcc ρ} {x : α}
    (h : DestinationConflict pdb resolve s x) :
    hscbStep pdb resolve s x = bumpErr s 1 := by
  obtain ⟨ins, hres, hcase⟩ := h
  rcases hcase with hdb | ⟨ht1, ht2⟩
  · simp [hscbStep, bumpErr, hres, hdb]
  · by_cases hdb : ins.database = pdb
    · simp [hscbStep, bumpErr, hres, hdb, ht1, ht2]
    · simp [hscbStep, bumpErr, hres, hdb]

theorem hscbStep_bump {α ρ : Type} (pdb : String)
    (resolve : α → Except String (PInsert ρ)) (s : PAcc ρ) (k : Nat) (x : α) :
    hscbStep pdb resolve (bumpErr s k) x = bumpErr (hscbStep pdb resolve s x) k := by
  cases hres : resolve x with
  | error e =>
    simp only [hscbStep, bumpErr, hres]
    simp [Nat.add_assoc, Nat.add_comm, Nat.add_left_comm]
  | ok ins =>
    simp only [hscbStep, bumpErr, hres]
    split_ifs <;> simp [Nat.add_assoc, Nat.add_comm, Nat.add_left_comm]

theorem foldl_hscb_bump {α ρ : Type} (pdb : String)
    (resolve : α → Except String (PInsert ρ)) :
    ∀ (l : List α) (s : PAcc ρ) (k : Nat),
      l.foldl (hscbStep pdb resolve) (bumpErr s k)
        = bumpErr (l.foldl (hscbStep pdb resolve) s) k := by
  intro l
  induction l with
  | nil => intro s k; rfl
  | cons a rest ih =>
    intro s k
    rw [List.foldl_cons, List.foldl_cons, hscbStep_bump, ih]

/-- C8: a batch item whose resolved Destination conflicts with the
Destination already established for the batch is dropped and counted as
an error, and nothing else changes: the run over the batch with the
conflicting item equals the run without it, except for one extra counted
error — so the remaining consistent items are still collected into the
single insert payload and the batch is never aborted. -/
theorem c8_destination_conflict_drops_item {α ρ : Type} (pdb : String)
    (resolve : α → Except String (PInsert ρ)) (pre : List α) (x : α) (suf : List α)
    (hc : DestinationConflict pdb resolve (handleStateChangeBatch pdb resolve pre) x) :
    handleStateChangeBatch pdb resolve (pre ++ x :: suf)
      = bumpErr (handleStateChangeBatch pdb resolve (pre ++ suf)) 1 := by
  unfold handleStateChangeBatch at *
  rw [List.foldl_append, List.foldl_cons, List.foldl_append]
  rw [hscbStep_conflict hc, foldl_hscb_bump]

/-- Concrete resolution function for the C8 witness: item 1 resolves to
table "light" while items 0 and 2 resolve to table "switch". -/
def resolveW : Nat → Except String (PInsert Nat)
  | 0 => .ok { database := "hass", tableName := "switch", input := 0 }
  | 1 => .ok { database := "hass", tableName := "light", input := 1 }
  | _ => .ok { database := "hass", tableName := "switch", input := 2 }

/-- Witness for C8: in the batch [0, 1, 2], item 1 conflicts with the
table established by item 0 and its only effect is one counted error. -/
theorem c8_destination_conflict_drops_item_witness :
    handleStateChangeBatch "hass" resolveW ([0] ++ 1 :: [2])
      = bumpErr (handleStateChangeBatch "hass" resolveW ([0] ++ [2])) 1 :=
  c8_destination_conflict_drops_item "hass" resolveW [0] 1 [2]
    ⟨{ database := "hass", tableName := "light", input := 1 }, rfl,
      Or.inr ⟨by decide, by decide⟩⟩

/-! ### Protocol client subscription lifecycle (hass/client.go)

The caller-visible effect of the client on its subscription registry and
on the output channels it hands out is modelled as a transition system.
Each step is one of the code paths that touches `c.subscriptions` or
calls `close` on a subscription output channel; `close(outputChan)`
appears in exactly two places in hass/client.go — the failure path of
`SubscribeEvents` (line 168) and `Close` (line 551). The reconnect path
(lines 384-463) copies the registry and re-issues `startSubscription`
with each subscription's original `outputChan` (line 447); neither it
nor `startSubscription` ever closes an output channel (they close only
the per-request `resultChan` via `closeReceiver`), and a failed replay
is only logged, so the reconnect step leaves the registry and the set of
closed channels unchanged. Output channels are identified by the order
of their allocation. -/

/-- One caller- or network-driven step of the client. -/
inductive CStep where
  | subscribeOk (eventType : String)
  | subscribeFail (eventType : String)
  | reconnect
  | close
deriving DecidableEq, Repr

/-- The client's subscription registry state: the active subscriptions
(event type and output-channel id, in registration order), the ids of
output channels that have been closed, and the next fresh channel id. -/
structure CState where
  subs : List (String × Nat)
  closedChans : List Nat
  nextChan : Nat
deriving DecidableEq, Repr

def initCState : CState := { subs := [], closedChans := [], nextChan := 0 }

/-- Effect of one step on the registry (hass/client.go).
`subscribeOk`: SubscribeEvents allocates the output channel, registers
the subscription and returns the channel open (lines 144-172).
`subscribeFail`: the acknowledgement failed or timed out, so the freshly
registered subscription is removed again and its never-returned channel
is closed (lines 157-169). `reconnect`: the reconnect goroutine replays
every registered subscription onto its original output channel, closing
nothing (lines 384-463). `close`: Close closes every subscription's
output channel and empties the registry (lines 540-562). -/
def clientStep (s : CState) : CStep → CState
  | .subscribeOk et =>
    { s with subs := s.subs ++ [(et, s.nextChan)], nextChan := s.nextChan + 1 }
  | .subscribeFail _ =>
    { s with closedChans := s.closedChans ++ [s.nextChan], nextChan := s.nextChan + 1 }
  | .reconnect => s
  | .close =>
    { s with subs := [], closedChans := s.closedChans ++ s.subs.map Prod.snd }

def clientRun : CState → List CStep → CState
  | s, [] => s
  | s, a :: rest => clientRun (clientStep s a) rest

theorem clientRun_append (l1 l2 : List CStep) :
    ∀ s : CState, clientRun s (l1 ++ l2) = clientRun (clientRun s l1) l2 := by
  induction l1 with
  | nil => intro s; rfl
  | cons a rest ih => intro s; exact ih (clientStep s a)

theorem clientRun_no_close {steps : List CStep}
    (hclose : CStep.close ∉ steps) (hfail : ∀ et, CStep.subscribeFail et ∉ steps) :
    ∀ s : CState, (clientRun s steps).closedChans = s.closedChans := by
  induction steps with
  | nil => intro s; rfl
  | cons a rest ih =>
    intro s
    have hclose' : CStep.close ∉ rest := fun h => hclose (List.mem_cons_of_mem _ h)
    have hfail' : ∀ et, CStep.subscribeFail et ∉ rest :=
      fun et h => hfail et (List.mem_cons_of_mem _ h)
    have hstep : (clientStep s a).closedChans = s.closedChans := by
      cases a with
      | subscribeOk et => rfl
      | subscribeFail et => exact absurd (List.mem_cons_self _ _) (hfail et)
      | reconnect => rfl
      | close => exact absurd (List.mem_cons_self _ _) hclose
    calc (clientRun s (a :: rest)).closedChans
        = (clientRun (clientStep s a) rest).closedChans := rfl
      _ = (clientStep s a).closedChans := ih hclose' hfail' (clientStep s a)
      _ = s.closedChans := hstep

/-- C1: in every run of the client in which `Close` is never called and
every `SubscribeEvents` call succeeds, no output channel handed to a
caller is ever closed — whatever disconnect/reconnect steps occur — and
a reconnect (which replays each subscription onto the channel the caller
already holds) leaves the subscription registry, and in particular every
caller-held channel identity, unchanged. A channel is closed only by an
explicit `Close` step or within a failing `SubscribeEvents` call itself. -/
theorem c1_subscription_survives_reconnect (steps : List CStep)
    (hclose : CStep.close ∉ steps) (hfail : ∀ et, CStep.subscribeFail et ∉ steps) :
    (clientRun initCState steps).closedChans = []
    ∧ clientRun initCState (steps ++ [CStep.reconnect]) = clientRun initCState steps := by
  constructor
  · exact clientRun_no_close hclose hfail initCState
  · rw [clientRun_append]
    rfl

def stepsW : List CStep := [.subscribeOk "state_changed", .reconnect, .reconnect]

/-- Witness for C1: a concrete run that subscribes once and then
survives two disconnect/reconnect cycles with no channel closed. -/
theorem c1_subscription_survives_reconnect_witness :
    (clientRun initCState stepsW).closedChans = []
    ∧ clientRun initCState (stepsW ++ [CStep.reconnect]) = clientRun initCState stepsW :=
  c1_subscription_survives_reconnect stepsW (by decide)
    (fun et h => by simp [stepsW] at h)
